import Mathlib

/-!
Shallow embedding of the rpix image-viewer core (src/lib.rs, src/main.rs)
and verification of its specification claims.

Strings are modelled as `List Char`; Rust `u16`/`u8`/`u32` parsing and
arithmetic are modelled over `ℕ` with explicit bounds and wrapping where the
source relies on machine semantics; `f64` arithmetic in the dimension planner
is modelled over `ℚ` (exact), with rounding as round-half-up, which agrees
with Rust's round-half-away-from-zero on the nonnegative values arising here.
The exact-rational planner agrees with the `f64` code only where every
floating-point operation is exact; theorems about the planner therefore
either stay in branches whose values are `u32` integers (exact in `f64`) or
hypothesize exactness of the intermediate ratio, since at extreme sizes
`f64` double rounding can shift the rounded result by one.
-/

deriving instance DecidableEq for Except

namespace Rpix

/-! ## Basic character-list helpers (models of Rust str operations) -/

def chars (s : String) : List Char := s.data

/-- Model of Rust whitespace trimming predicate (ASCII subset). -/
def isWSChar (c : Char) : Bool :=
  c == ' ' || c == '\t' || c == '\n' || c == '\r' || c == '\x0b' || c == '\x0c'

/-- Model of Rust `str::trim`. -/
def trim (l : List Char) : List Char :=
  ((l.dropWhile isWSChar).reverse.dropWhile isWSChar).reverse

/-- Model of Rust `str::split(sep)`: splits on every occurrence of `sep`,
keeping empty pieces; the empty string yields one empty piece. -/
def splitOn (sep : Char) : List Char → List (List Char)
  | [] => [[]]
  | c :: cs =>
    if c = sep then [] :: splitOn sep cs
    else
      match splitOn sep cs with
      | [] => [[c]]
      | h :: t => (c :: h) :: t

/-- Inverse of `splitOn`: interleave the separator back. -/
def joinSep (sep : Char) : List (List Char) → List Char
  | [] => []
  | x :: xs =>
    x ++ (match xs with
          | [] => []
          | _ :: _ => sep :: joinSep sep xs)

/-! ## Numeral parsing (models of Rust `from_str` / `from_str_radix`) -/

def digitVal10 (c : Char) : Option ℕ :=
  if 48 ≤ c.toNat ∧ c.toNat ≤ 57 then some (c.toNat - 48) else none

def hexDigitVal (c : Char) : Option ℕ :=
  if 48 ≤ c.toNat ∧ c.toNat ≤ 57 then some (c.toNat - 48)
  else if 97 ≤ c.toNat ∧ c.toNat ≤ 102 then some (c.toNat - 87)
  else if 65 ≤ c.toNat ∧ c.toNat ≤ 70 then some (c.toNat - 55)
  else none

def numStep (digit : Char → Option ℕ) (base : ℕ) (acc : Option ℕ) (c : Char) : Option ℕ :=
  match acc, digit c with
  | some a, some d => some (base * a + d)
  | _, _ => none

def numValCore (digit : Char → Option ℕ) (base : ℕ) (l : List Char) : Option ℕ :=
  l.foldl (numStep digit base) (some 0)

/-- Value of a nonempty all-digit numeral, `none` otherwise. -/
def numVal (digit : Char → Option ℕ) (base : ℕ) (l : List Char) : Option ℕ :=
  if l = [] then none else numValCore digit base l

/-- Drop one optional leading `+` sign (Rust integer parsing allows it for
unsigned types; a leading `-` is rejected by the digit check). -/
def stripPlus (l : List Char) : List Char :=
  match l with
  | c :: r => if c = '+' then r else l
  | [] => l

/-- Model of Rust `str::parse::<u16>`: optional leading `+`, then a nonempty
run of decimal digits whose value fits in `u16`; overflow is an error. -/
def parseU16 (l : List Char) : Option ℕ :=
  match numVal digitVal10 10 (stripPlus l) with
  | some v => if v ≤ 65535 then some v else none
  | none => none

/-- Model of Rust `u8::from_str_radix(s, 16)`: optional leading `+`, then a
nonempty run of hex digits whose value fits in `u8`. -/
def parseU8Hex (l : List Char) : Option ℕ :=
  match numVal hexDigitVal 16 (stripPlus l) with
  | some v => if v ≤ 255 then some v else none
  | none => none

/-! ## parse_color (src/lib.rs lines 67-76) -/

/-- Model of `parse_color`: Rust `trim_start_matches('#')` removes every
leading `#`, then the remaining string must have length 6 and parse as three
2-hex-digit bytes; alpha is forced to 255. -/
def parse_color (l : List Char) : Option (ℕ × ℕ × ℕ × ℕ) :=
  if (l.dropWhile (· == '#')).length = 6 then
    match parseU8Hex ((l.dropWhile (· == '#')).take 2),
        parseU8Hex (((l.dropWhile (· == '#')).drop 2).take 2),
        parseU8Hex ((l.dropWhile (· == '#')).drop 4) with
    | some r, some g, some b => some (r, g, b, 255)
    | _, _, _ => none
  else none

def isHexDigitB (c : Char) : Bool := (hexDigitVal c).isSome

/-- A 2-character group accepted by `u8::from_str_radix(-, 16)`:
two hex digits, or `+` followed by one hex digit. -/
def validPairB (a b : Char) : Bool :=
  (isHexDigitB a && isHexDigitB b) || (a == '+' && isHexDigitB b)

/-- The exact set of strings `parse_color` accepts: any number of leading
`#` characters, then exactly 6 characters forming three valid groups. -/
def colorGrammar (l : List Char) : Bool :=
  match l.dropWhile (· == '#') with
  | [a, b, c, d, e, f] => validPairB a b && validPairB c d && validPairB e f
  | _ => false

/-! ## get_term_size (src/lib.rs lines 40-65)

The probe input models the result of `crossterm::terminal::window_size()`:
`none` when the query fails, otherwise `(pixel width, pixel height, columns,
rows)`, each a `u16` cast to `u32`.  `u32` subtraction wraps in release mode,
and division by zero panics in every mode; a panic is modelled as `none`. -/

def wsub32 (a b : ℕ) : ℕ := (a + 2 ^ 32 - b) % 2 ^ 32

def wmul32 (a b : ℕ) : ℕ := a * b % 2 ^ 32

def get_term_size (q : Option (ℕ × ℕ × ℕ × ℕ)) : Option (ℕ × ℕ) :=
  match q with
  | none => some (800, 400)
  | some (pw, ph, cols, rows) =>
    let w := if 0 < pw then pw else if 0 < cols then cols * 10 else 800
    let hres : Option ℕ :=
      if 0 < ph then
        if 0 < cols then
          if rows = 0 then none
          else some (wmul32 ph (wsub32 rows 2) / rows)
        else some ph
      else if 0 < rows then some (wmul32 (wsub32 rows 2) 20)
      else some 400
    match hres with
    | none => none
    | some h => some (w, h)

/-! ## calculate_dimensions (src/lib.rs lines 115-172) -/

/-- Model of Rust `f64::round() as u32` on the nonnegative values arising
here: round half up, clamp negatives to 0 and saturate at `u32::MAX`. -/
def toU32 (q : ℚ) : ℕ := min (round q).toNat (2 ^ 32 - 1)

/-- Exact-rational model of the `f64` planner.  It coincides with the code
exactly on computations in which every `f64` operation is exact: the
pass-through branch (plain `u32` values, all below `2^53`), and the scaling
branches when the ratio involved is a dyadic rational `m / 2^k` with
`m < 2^53` whose product with the other axis stays below `2^53`.  Theorems
about scaling restrict to that domain; outside it `f64` double rounding can
differ from the exact rational by one in the final rounded integer. -/
def calculate_dimensions (imgW imgH : ℕ) (confW confH : Option ℕ)
    (fullwidth fullheight resize noresize : Bool) (termW termH : ℕ) : ℕ × ℕ :=
  let origW : ℚ := imgW
  let origH : ℚ := imgH
  let width : ℚ := (confW.getD 0 : ℕ)
  let height : ℚ := (confH.getD 0 : ℕ)
  let useResize : Bool := resize ||
    (!noresize && !fullwidth && !fullheight &&
      decide ((origW > (termW : ℚ) ∧ 0 < termW) ∨ (origH > (termH : ℚ) ∧ 0 < termH)))
  let aspectFW : Bool := decide (origW / origH > origH / origW)
  let useFW : Bool := fullwidth || (useResize && aspectFW)
  let useFH : Bool := fullheight || (useResize && !aspectFW)
  let wh : ℚ × ℚ :=
    if 0 < width ∧ height = 0 then (width, origH * (width / origW))
    else if 0 < height ∧ width = 0 then (origW * (height / origH), height)
    else if useFW then ((termW : ℚ), origH * ((termW : ℚ) / origW))
    else if useFH then (origW * ((termH : ℚ) / origH), (termH : ℚ))
    else (origW, origH)
  (toU32 wh.1, toU32 wh.2)

/-! ## add_background (src/lib.rs lines 78-113) -/

structure Img where
  width : ℕ
  height : ℕ
  pixels : List (ℕ × ℕ × ℕ × ℕ)
deriving DecidableEq

def blend (s bg a : ℕ) : ℕ := (s * a + bg * (255 - a)) / 255

def compositePixel (color : ℕ × ℕ × ℕ × ℕ) (p : ℕ × ℕ × ℕ × ℕ) : ℕ × ℕ × ℕ × ℕ :=
  if p.2.2.2 = 255 then p
  else if p.2.2.2 = 0 then color
  else (blend p.1 color.1 p.2.2.2, blend p.2.1 color.2.1 p.2.2.2,
        blend p.2.2.1 color.2.2.1 p.2.2.2, 255)

def add_background (img : Img) (color : ℕ × ℕ × ℕ × ℕ) : Img :=
  { width := img.width, height := img.height,
    pixels := img.pixels.map (compositePixel color) }

/-! ## parse_pages (src/lib.rs lines 175-217) -/

inductive PErr where
  | badInt
  | badRange
  | badIndex
deriving DecidableEq

def isErr {ε α : Type} : Except ε α → Bool
  | .error _ => true
  | .ok _ => false

/-- One comma-separated part of the page string, mirroring the loop body:
trim, skip if empty, range branch on `-`, else single index. -/
def parsePart (part : List Char) : Except PErr (List ℕ) :=
  if trim part = [] then .ok []
  else if '-' ∈ trim part then
    match parseU16 (trim ((splitOn '-' (trim part)).headD [])),
        parseU16 (trim (((splitOn '-' (trim part)).drop 1).headD [])) with
    | some a, some b =>
      if a < 1 ∨ b ≤ a then .error .badRange
      else .ok (List.range' (a - 1) (b + 1 - a))
    | _, _ => .error .badInt
  else
    match parseU16 (trim part) with
    | some n => if n < 1 then .error .badIndex else .ok [n - 1]
    | none => .error .badInt

def parsePagesAux : List (List Char) → Except PErr (List ℕ)
  | [] => .ok []
  | p :: ps =>
    match parsePart p with
    | .error e => .error e
    | .ok l =>
      match parsePagesAux ps with
      | .error e => .error e
      | .ok r => .ok (l ++ r)

/-- Model of Rust `Vec::dedup`: remove adjacent duplicates. -/
def dedupAdj : List ℕ → List ℕ
  | [] => []
  | [x] => [x]
  | x :: y :: r => if x = y then dedupAdj (y :: r) else x :: dedupAdj (y :: r)

def sortDedup (l : List ℕ) : List ℕ := dedupAdj (List.insertionSort (· ≤ ·) l)

def parse_pages (s : List Char) : Except PErr (Option (List ℕ)) :=
  match parsePagesAux (splitOn ',' s) with
  | .error e => .error e
  | .ok [] => .ok none
  | .ok l => .ok (some (sortDedup l))

/-! ### Spec-side page-token grammar -/

inductive PageTok where
  | blank
  | single (n : ℕ)
  | range (a b : ℕ)
deriving DecidableEq

/-- A plain decimal numeral with value representable in `u16`. -/
def pureNum (l : List Char) : Option ℕ :=
  match numVal digitVal10 10 l with
  | some v => if v ≤ 65535 then some v else none
  | none => none

/-- Grammar classification of one comma-separated part:
blank, `INT`, or `INT-INT` (whitespace around the integers ignored,
integers at most 65535). -/
def tokOfPart (part : List Char) : Option PageTok :=
  if trim part = [] then some .blank
  else if '-' ∈ trim part then
    match splitOn '-' (trim part) with
    | [f1, f2] =>
      match pureNum (trim f1), pureNum (trim f2) with
      | some a, some b => some (.range a b)
      | _, _ => none
    | _ => none
  else (pureNum (trim part)).map .single

def tokBad : PageTok → Bool
  | .blank => false
  | .single n => decide (n < 1)
  | .range a b => decide (a < 1 ∨ b ≤ a)

def tokSel : PageTok → List ℕ
  | .blank => []
  | .single n => [n - 1]
  | .range a b => List.range' (a - 1) (b + 1 - a)

def selOf (ts : List PageTok) : List ℕ := ts.foldr (fun t acc => tokSel t ++ acc) []

def toksOf (s : List Char) : List PageTok := (splitOn ',' s).filterMap tokOfPart

/-- A pure decimal numeral whose value exceeds `u16::MAX`. -/
def digitsOver (t : List Char) : Bool :=
  match numVal digitVal10 10 t with
  | some v => decide (65535 < v)
  | none => false

/-- A (trimmed) part that mentions a page number above 65535: either a single
overflowing numeral, or an `a-b` range one of whose two sides overflows. -/
def overflowTok (t : List Char) : Bool :=
  digitsOver t ||
    (match splitOn '-' t with
     | [f1, f2] => digitsOver (trim f1) || digitsOver (trim f2)
     | _ => false)

/-! ## Format dispatch: load_data / load_file (src/lib.rs lines 219-288)

The decoder collaborators (image/svg/pdf/office/html renderers) are external
libraries; they are abstracted as functions.  The filesystem is a partial map
from paths to contents.  The recursion of `load_data` into `load_file` has no
depth guard in the source; it is embedded with explicit fuel, `LErr.noFuel`
marking a computation that is still recursing when the fuel runs out. -/

inductive InputTy where
  | auto
  | image
  | text
  | svg
  | pdf
  | html
  | office
deriving DecidableEq

structure Decoders where
  svg : List Char → Option Img
  pdf : List Char → Option Img
  office : List Char → Option Img
  html : List Char → Option Img
  img : List Char → Option Img

def Fs : Type := List Char → Option (List Char)

inductive LErr where
  | textUnimpl
  | decodeFail
  | fileMissing
  | noFuel
deriving DecidableEq

def ofOpt (o : Option Img) : Except LErr Img :=
  match o with
  | some i => .ok i
  | none => .error .decodeFail

/-- Model of Rust `Path::extension`: the segment after the last dot. -/
def extOf (p : List Char) : List Char :=
  if '.' ∈ p then (p.reverse.takeWhile (fun c => c != '.')).reverse else []

def isUrlB (s : List Char) : Bool :=
  (chars ("http://")).isPrefixOf s || (chars ("https://")).isPrefixOf s ||
    (chars ("file://")).isPrefixOf s

def isHtmlGuard (it : InputTy) (ext : List Char) (s : List Char) : Bool :=
  it == .html || ext == chars ("html") || ext == chars ("htm") || isUrlB s

def load_data (d : Decoders) (fs : Fs) (it : InputTy) :
    ℕ → List Char → List Char → Except LErr Img
  | 0, _, _ => .error .noFuel
  | Nat.succ fuel, data, ext =>
    if it = .text then .error .textUnimpl
    else if it = .image then ofOpt (d.img data)
    else if it = .svg ∨ ext = chars ("svg") ∨ (chars ("<svg")).isPrefixOf data
        ∨ (chars ("<?xml")).isPrefixOf data then ofOpt (d.svg data)
    else if it = .pdf ∨ ext = chars ("pdf") ∨ (chars ("%PDF")).isPrefixOf data then
      ofOpt (d.pdf data)
    else if it = .office ∨ ext ∈ [chars ("xlsx"), chars ("docx"), chars ("pptx")] then
      ofOpt (d.office data)
    else if isHtmlGuard it ext data || (chars ("<html")).isPrefixOf data
        || (chars ("<!DOCTYPE html")).isPrefixOf data then ofOpt (d.html data)
    else
      match d.img data with
      | some i => .ok i
      | none =>
        let p := trim data
        match fs p with
        | some content =>
          let ext2 := extOf p
          if isHtmlGuard it ext2 p then ofOpt (d.html p)
          else load_data d fs it fuel content ext2
        | none => .error .decodeFail

/-- Model of `load_file`: extension from the path, html check on the path
string, then read the file and dispatch on its bytes. -/
def load_file (d : Decoders) (fs : Fs) (it : InputTy) (fuel : ℕ)
    (path : List Char) : Except LErr Img :=
  let ext := extOf path
  if isHtmlGuard it ext path then ofOpt (d.html path)
  else
    match fs path with
    | some content => load_data d fs it fuel content ext
    | none => .error .fileMissing

/-- A file whose content is its own path: the self-referential input on which
the dispatcher's fallback recursion never terminates. -/
def loopPath : List Char := chars ("loop.txt")

def loopFs : Fs := fun p => if p = loopPath then some loopPath else none

/-- Decoders that reject every input (the bytes "loop.txt" are not a valid
image, svg, pdf, office document or html page). -/
def noDec : Decoders :=
  ⟨fun _ => none, fun _ => none, fun _ => none, fun _ => none, fun _ => none⟩

/-! ## Protocol encoder (src/main.rs lines 180-273) -/

def CHUNK_SIZE : ℕ := 4096

structure Frame where
  hdr : List Char
  more : ℕ
  data : List Char
deriving DecidableEq

/-- Model of the chunk-emission loop in `render_image`: each iteration takes
`CHUNK_SIZE` characters of the base64 text, emits the header only on the
first frame, and sets the continuation flag `m` to 1 exactly when more text
remains. -/
def chunkFrames (header : List Char) : Bool → List Char → List Frame
  | _, [] => []
  | isFirst, c :: cs =>
    ⟨if isFirst then header else [],
     if (c :: cs).length ≤ CHUNK_SIZE then 0 else 1,
     (c :: cs).take CHUNK_SIZE⟩ ::
      chunkFrames header false ((c :: cs).drop CHUNK_SIZE)
termination_by b l => l.length
decreasing_by simp [CHUNK_SIZE]; omega

def concatData (l : List Frame) : List Char := l.foldr (fun f acc => f.data ++ acc) []

def joinL (ls : List (List Char)) : List Char := ls.foldr (fun a b => a ++ b) []

def escCh : Char := '\x1b'

/-- Byte rendering of one frame: `ESC _ G <hdr> m=<0|1> ; <chunk> ESC \`. -/
def renderFrame (f : Frame) : List Char :=
  [escCh, '_', 'G'] ++ f.hdr ++ ['m', '='] ++ (if f.more = 0 then ['0'] else ['1']) ++
    [';'] ++ f.data ++ [escCh, '\\']

/-- Full terminal transmission: all frames then one newline. -/
def renderOutput (header enc : List Char) : List Char :=
  joinL ((chunkFrames header true enc).map renderFrame) ++ ['\n']

/-! ## Header selection in render_image (src/main.rs lines 211-246) -/

inductive Mode where
  | png
  | zlib
  | raw
deriving DecidableEq

/-- The header line `render_image` emits before the first chunk: PNG mode
uses `a=T,f=100,`; both non-PNG modes (zlib-compressed and uncompressed raw
RGBA) use `a=T,f=32,s=<w>,v=<h>,o=z,`. -/
def headerFor (mode : Mode) (width height : ℕ) : List Char :=
  if mode = .png then chars ("a=T,f=100,")
  else chars ("a=T,f=32,s=") ++ chars (Nat.repr width) ++ chars (",v=") ++
    chars (Nat.repr height) ++ chars (",o=z,")

/-! # Theorems -/

/-- C6: refuted as stated — the probe is not total.  When the terminal
reports a nonzero pixel height, a nonzero column count and zero rows,
`get_term_size` computes `height * (rows - 2) / rows` with `rows = 0`:
the division by zero panics (in every build profile), modelled as `none`.
The claim (and §4.1/§7 of the spec) says the probe never fails. -/
theorem get_term_size_zero_rows_panics :
    get_term_size (some (0, 100, 80, 0)) = none := rfl

/-- C9: the raw-RGBA header of `render_image` carries the compression flag
`o=z` in both non-PNG modes: the header for the uncompressed `raw` mode is
identical to the header for the `zlib` mode and contains `o=z`, although the
raw payload never went through the compressor.  The claim says the flag is
present exactly when the zlib mode was used. -/
theorem raw_header_compression_flag :
    headerFor .raw 5 7 = headerFor .zlib 5 7 ∧
      headerFor .raw 5 7 = chars ("a=T,f=32,s=5,v=7,o=z,") := ⟨rfl, rfl⟩

/-- C7 counterexample: `trim_start_matches('#')` strips every leading `#`,
so "##FFFFFF" (length 8, two `#`) is accepted, contradicting "6 hexadecimal
digits with one optional leading '#'" and "rejects every string of any other
length". -/
theorem parse_color_double_hash_cex :
    parse_color (chars ("##FFFFFF")) = some (255, 255, 255, 255) := by decide

/-- C2 counterexample: an explicit width of 0 (`conf_size = (Some 0, None)`)
is treated as "no width" by `unwrap_or(0)` followed by the `width > 0.0`
test, so the source size is returned: the output width is 5, not the
requested width 0, contradicting "the output width is that width". -/
theorem calc_dims_zero_width_cex :
    calculate_dimensions 5 7 (some 0) none false false false false 800 400 = (5, 7) ∧
      (5 : ℕ) ≠ 0 := by
  refine ⟨?_, by decide⟩
  simp only [calculate_dimensions]
  norm_num [toU32, round_eq]
  all_goals decide

/-- C8 counterexample: with source 1000×1 and explicit width 1, the planned
height is 1 × (1/1000) = 0.001, which rounds to 0: the output height is zero
although the source height is 1 ≠ 0, contradicting "neither output is zero
unless the source dimension in that axis was zero". -/
theorem calc_dims_zero_output_cex :
    calculate_dimensions 1000 1 (some 1) none false false false false 800 400 = (1, 0) ∧
      (1 : ℕ) ≠ 0 := by
  refine ⟨?_, by decide⟩
  simp only [calculate_dimensions]
  norm_num [toU32, round_eq]

/-- C4: refuted — the treat-text-as-file-path fallback has no depth guard.
On a file `loop.txt` whose content is the text `loop.txt` (its own path),
`load_data` fails raster decoding, finds the trimmed text to be an existing
file, and recurses through `load_file` into the identical state: for every
fuel bound the computation is still recursing, i.e. the dispatcher does not
terminate, contradicting the claimed depth guard of 1.  The spec explicitly
demands "one level of indirection only, not an unbounded loop", so this is a
bug in the code. -/
theorem load_data_self_path_loops :
    ∀ fuel : ℕ,
      load_data noDec loopFs .auto fuel loopPath (chars ("txt")) = .error .noFuel := by
  intro fuel
  induction fuel with
  | zero => rfl
  | succ n ih =>
    rw [show load_data noDec loopFs .auto (n + 1) loopPath (chars ("txt")) =
          load_data noDec loopFs .auto n loopPath (chars ("txt")) from rfl]
    exact ih

/-- C3: compositing preserves the dimensions, forces alpha 255 everywhere,
copies opaque source pixels verbatim, replaces fully transparent pixels by
the (opaque) background color, and otherwise blends each channel with the
truncating integer formula `(src*a + bg*(255-a)) / 255`; on the spec's
example, white background and source (255,0,0,128) give (255,127,127,255). -/
theorem add_background_spec (img : Img) (color : ℕ × ℕ × ℕ × ℕ)
    (hc : color.2.2.2 = 255) :
    (add_background img color).width = img.width ∧
    (add_background img color).height = img.height ∧
    (∀ q ∈ (add_background img color).pixels, q.2.2.2 = 255) ∧
    (add_background img color).pixels = img.pixels.map (fun p =>
      if p.2.2.2 = 255 then p
      else if p.2.2.2 = 0 then color
      else ((p.1 * p.2.2.2 + color.1 * (255 - p.2.2.2)) / 255,
            (p.2.1 * p.2.2.2 + color.2.1 * (255 - p.2.2.2)) / 255,
            (p.2.2.1 * p.2.2.2 + color.2.2.1 * (255 - p.2.2.2)) / 255, 255)) ∧
    add_background ⟨1, 1, [(255, 0, 0, 128)]⟩ (255, 255, 255, 255) =
      ⟨1, 1, [(255, 127, 127, 255)]⟩ := by
  refine ⟨rfl, rfl, ?_, rfl, by decide⟩
  intro q hq
  simp only [add_background, List.mem_map] at hq
  obtain ⟨p, hp, rfl⟩ := hq
  by_cases h1 : p.2.2.2 = 255
  · simp [compositePixel, h1]
  · by_cases h0 : p.2.2.2 = 0
    · simp [compositePixel, h1, h0, hc]
    · simp [compositePixel, h1, h0]

/-- Witness for C3 at a concrete image and background. -/
theorem add_background_spec_witness :
    add_background ⟨1, 1, [(255, 0, 0, 128)]⟩ (255, 255, 255, 255) =
      ⟨1, 1, [(255, 127, 127, 255)]⟩ :=
  (add_background_spec ⟨1, 1, [(255, 0, 0, 128)]⟩ (255, 255, 255, 255) rfl).2.2.2.2

/-! ### Chunking lemmas for the protocol encoder -/

lemma chunkFrames_nil (header : List Char) (b : Bool) :
    chunkFrames header b [] = [] := by
  rw [chunkFrames]

lemma chunkFrames_cons (header : List Char) (b : Bool) (c : Char) (cs : List Char) :
    chunkFrames header b (c :: cs) =
      ⟨if b then header else [],
       if (c :: cs).length ≤ CHUNK_SIZE then 0 else 1,
       (c :: cs).take CHUNK_SIZE⟩ ::
        chunkFrames header false ((c :: cs).drop CHUNK_SIZE) := by
  rw [chunkFrames]

lemma chunkFrames_ne_nil (header : List Char) (b : Bool) (enc : List Char)
    (h : enc ≠ []) : chunkFrames header b enc ≠ [] := by
  cases enc with
  | nil => exact absurd rfl h
  | cons c cs => rw [chunkFrames_cons]; simp

lemma chunkFrames_length (header : List Char) :
    ∀ (n : ℕ) (b : Bool) (enc : List Char), enc.length ≤ n →
      (chunkFrames header b enc).length = (enc.length + (CHUNK_SIZE - 1)) / CHUNK_SIZE := by
  intro n
  induction n with
  | zero =>
    intro b enc h
    have he : enc = [] := List.eq_nil_of_length_eq_zero (Nat.le_zero.mp h)
    subst he
    simp [chunkFrames_nil, CHUNK_SIZE]
  | succ n ih =>
    intro b enc h
    cases enc with
    | nil => simp [chunkFrames_nil, CHUNK_SIZE]
    | cons c cs =>
      rw [chunkFrames_cons]
      simp only [List.length_cons]
      rw [ih false _ (by simp only [List.length_drop, List.length_cons, CHUNK_SIZE] at *; omega)]
      simp only [List.length_drop, List.length_cons, CHUNK_SIZE]
      omega

lemma chunkFrames_concat (header : List Char) :
    ∀ (n : ℕ) (b : Bool) (enc : List Char), enc.length ≤ n →
      concatData (chunkFrames header b enc) = enc := by
  intro n
  induction n with
  | zero =>
    intro b enc h
    have he : enc = [] := List.eq_nil_of_length_eq_zero (Nat.le_zero.mp h)
    subst he
    simp [chunkFrames_nil, concatData]
  | succ n ih =>
    intro b enc h
    cases enc with
    | nil => simp [chunkFrames_nil, concatData]
    | cons c cs =>
      rw [chunkFrames_cons]
      simp only [concatData, List.foldr_cons]
      rw [show List.foldr (fun f acc => f.data ++ acc) [] = concatData from rfl]
      rw [ih false _ (by simp only [List.length_drop, List.length_cons, CHUNK_SIZE] at *; omega)]
      exact List.take_append_drop _ _

lemma chunkFrames_more (header : List Char) :
    ∀ (n : ℕ) (b : Bool) (enc : List Char), enc.length ≤ n →
      (chunkFrames header b enc).map Frame.more =
        (if enc = [] then []
         else List.replicate ((chunkFrames header b enc).length - 1) 1 ++ [0]) := by
  intro n
  induction n with
  | zero =>
    intro b enc h
    have he : enc = [] := List.eq_nil_of_length_eq_zero (Nat.le_zero.mp h)
    subst he
    simp [chunkFrames_nil]
  | succ n ih =>
    intro b enc h
    cases enc with
    | nil => simp [chunkFrames_nil]
    | cons c cs =>
      rw [chunkFrames_cons]
      by_cases hle : (c :: cs).length ≤ CHUNK_SIZE
      · have hdrop : (c :: cs).drop CHUNK_SIZE = [] := List.drop_eq_nil_of_le hle
        have hle2 : cs.length + 1 ≤ CHUNK_SIZE := by
          simp only [List.length_cons] at hle
          exact hle
        rw [hdrop, chunkFrames_nil]
        simp [hle2]
      · have hmore1 : (if (c :: cs).length ≤ CHUNK_SIZE then (0 : ℕ) else 1) = 1 :=
          if_neg hle
        have hdropne : (c :: cs).drop CHUNK_SIZE ≠ [] := by
          simp only [ne_eq, List.drop_eq_nil_iff, List.length_cons, CHUNK_SIZE] at *
          omega
        have hrest := ih false ((c :: cs).drop CHUNK_SIZE)
          (by simp only [List.length_drop, List.length_cons, CHUNK_SIZE] at *; omega)
        rw [if_neg hdropne] at hrest
        have hrestne := chunkFrames_ne_nil header false _ hdropne
        obtain ⟨m, hm⟩ : ∃ m, (chunkFrames header false ((c :: cs).drop CHUNK_SIZE)).length
            = m + 1 := by
          cases hrl : (chunkFrames header false ((c :: cs).drop CHUNK_SIZE)) with
          | nil => exact absurd hrl hrestne
          | cons f fs => exact ⟨fs.length, by simp⟩
        rw [hmore1, List.map_cons, hrest, if_neg (List.cons_ne_nil c cs)]
        simp [List.replicate_succ, hm]

lemma chunkFrames_hdr_false (header : List Char) :
    ∀ (n : ℕ) (enc : List Char), enc.length ≤ n →
      (chunkFrames header false enc).map Frame.hdr =
        List.replicate (chunkFrames header false enc).length [] := by
  intro n
  induction n with
  | zero =>
    intro enc h
    have he : enc = [] := List.eq_nil_of_length_eq_zero (Nat.le_zero.mp h)
    subst he
    simp [chunkFrames_nil]
  | succ n ih =>
    intro enc h
    cases enc with
    | nil => simp [chunkFrames_nil]
    | cons c cs =>
      rw [chunkFrames_cons]
      simp only [List.map_cons, List.length_cons, if_neg Bool.false_ne_true,
        List.replicate_succ]
      rw [ih _ (by simp only [List.length_drop, List.length_cons, CHUNK_SIZE] at *; omega)]

/-- C1: the protocol encoder's chunking loop.  For every header and base64
text: the number of emitted frames is `ceil(L / 4096)`; concatenating the
chunk payloads in emission order reproduces the text exactly; the
continuation flag `m` is 1 on every frame except the last and 0 on the last;
the header fields appear only on the first frame; and the emitted bytes are
the frames rendered as `ESC _ G <hdr> m=<flag> ; <chunk> ESC \`, in order,
followed by a single trailing newline. -/
theorem render_chunking_spec (header enc : List Char) :
    (chunkFrames header true enc).length = (enc.length + (CHUNK_SIZE - 1)) / CHUNK_SIZE
    ∧ concatData (chunkFrames header true enc) = enc
    ∧ (chunkFrames header true enc).map Frame.more =
        (if enc = [] then []
         else List.replicate ((chunkFrames header true enc).length - 1) 1 ++ [0])
    ∧ (chunkFrames header true enc).map Frame.hdr =
        (if enc = [] then []
         else header :: List.replicate ((chunkFrames header true enc).length - 1) [])
    ∧ renderOutput header enc =
        joinL ((chunkFrames header true enc).map (fun f =>
          [escCh, '_', 'G'] ++ f.hdr ++ ['m', '='] ++
            (if f.more = 0 then ['0'] else ['1']) ++ [';'] ++ f.data ++
            [escCh, '\\'])) ++ ['\n'] := by
  refine ⟨chunkFrames_length header enc.length true enc le_rfl,
    chunkFrames_concat header enc.length true enc le_rfl,
    chunkFrames_more header enc.length true enc le_rfl, ?_, rfl⟩
  cases enc with
  | nil => simp [chunkFrames_nil]
  | cons c cs =>
    rw [chunkFrames_cons, if_neg (List.cons_ne_nil c cs), List.map_cons,
      chunkFrames_hdr_false header ((c :: cs).drop CHUNK_SIZE).length _ le_rfl]
    simp

/-- C2 (amended): the planner's precedence, with "explicit width" read as a
nonzero explicit width (the code treats `Some 0` as no width, see the
counterexample), and with the scaled-height equation restricted to inputs on
which the code's `f64` arithmetic is exact, where the exact-rational model
coincides with the program.  With `no-resize` set, no explicit size, and no
fill or resize flags, the output equals the source size exactly (plain `u32`
values, exact in `f64`).  With a nonzero explicit width `w` and no explicit
height, when the width ratio `w / source_width` is a dyadic rational
`m / 2^k` with `m < 2^53` and `source_height * m < 2^53` — so the `f64`
division, multiplication and rounding are all exact — the output width is
`w` and the output height is `round(source_height * w / source_width)`.
(Outside that domain the equation is not claimed: `f64` double rounding can
shift the rounded height by one, e.g. at source 1273878287×2978347 with
width 2371429888.) -/
theorem calc_dims_precedence_amended (imgW imgH termW termH : ℕ)
    (fw fh rz nrz : Bool) :
    (nrz = true → rz = false → fw = false → fh = false →
      imgW < 2 ^ 32 → imgH < 2 ^ 32 →
      calculate_dimensions imgW imgH none none fw fh rz nrz termW termH = (imgW, imgH))
    ∧ (∀ w m k : ℕ, 0 < w → w < 2 ^ 32 → 0 < imgW →
        (w : ℚ) / (imgW : ℚ) = (m : ℚ) / 2 ^ k →
        m < 2 ^ 53 → imgH * m < 2 ^ 53 →
        (round ((imgH * w : ℚ) / imgW)).toNat < 2 ^ 32 →
        calculate_dimensions imgW imgH (some w) none fw fh rz nrz termW termH =
          (w, (round ((imgH * w : ℚ) / imgW)).toNat)) := by
  constructor
  · intro h1 h2 h3 h4 hw hh
    subst h1; subst h2; subst h3; subst h4
    simp only [calculate_dimensions, Option.getD_none, Nat.cast_zero]
    norm_num [toU32, round_natCast]
    constructor <;> omega
  · intro w m k hw hwlt himgW hdyadic hm53 hprod53 hround
    have hwq : (0 : ℚ) < (w : ℚ) := by exact_mod_cast hw
    simp only [calculate_dimensions, Option.getD_some, Option.getD_none, Nat.cast_zero]
    rw [if_pos ⟨hwq, trivial⟩]
    have hmd : (imgH : ℚ) * ((w : ℚ) / (imgW : ℚ)) = ((imgH * w : ℚ)) / (imgW : ℚ) := by
      ring
    rw [hmd]
    norm_num [toU32, round_natCast]
    constructor <;> omega

/-- Witness for C2 (amended): no-resize on a 100×50 source keeps 100×50;
explicit width 50 on a 200×100 source (ratio 50/200 = 1/2^2, exact in
`f64`) gives 50×25. -/
theorem calc_dims_precedence_amended_witness :
    calculate_dimensions 100 50 none none false false false true 800 400 = (100, 50) ∧
      calculate_dimensions 200 100 (some 50) none false false false false 800 400 =
        (50, 25) := by
  constructor
  · exact (calc_dims_precedence_amended 100 50 800 400 false false false true).1
      rfl rfl rfl rfl (by norm_num) (by norm_num)
  · have h := (calc_dims_precedence_amended 200 100 800 400 false false false false).2
      50 1 2 (by norm_num) (by norm_num) (by norm_num) (by norm_num)
      (by norm_num) (by norm_num)
      (by rw [round_eq]; norm_num)
    rw [h, round_eq]
    norm_num
    decide

/-- C8 (amended): both outputs are the round-to-nearest integers of the
real-valued planned dimensions, but an output can be zero despite a nonzero
source axis (see the counterexample).  When no explicit size is requested,
no fill or resize flag is set, and either `no-resize` is set or the source
fits within every known (nonzero) terminal axis, the outputs equal the
source dimensions, hence are zero only when the source axis is zero. -/
theorem calc_dims_zero_only_from_source (imgW imgH termW termH : ℕ) (fw fh rz nrz : Bool)
    (hfw : fw = false) (hfh : fh = false) (hrz : rz = false)
    (hauto : nrz = true ∨ ((imgW ≤ termW ∨ termW = 0) ∧ (imgH ≤ termH ∨ termH = 0)))
    (hW : imgW < 2 ^ 32) (hH : imgH < 2 ^ 32) :
    calculate_dimensions imgW imgH none none fw fh rz nrz termW termH = (imgW, imgH)
    ∧ ((calculate_dimensions imgW imgH none none fw fh rz nrz termW termH).1 = 0 ↔
        imgW = 0)
    ∧ ((calculate_dimensions imgW imgH none none fw fh rz nrz termW termH).2 = 0 ↔
        imgH = 0) := by
  subst hfw; subst hfh; subst hrz
  have hmain : calculate_dimensions imgW imgH none none false false false nrz termW termH
      = (imgW, imgH) := by
    have hres : (!nrz && !false && !false &&
        decide (((imgW : ℚ) > (termW : ℚ) ∧ 0 < termW) ∨
          ((imgH : ℚ) > (termH : ℚ) ∧ 0 < termH))) = false := by
      rcases hauto with hn | ⟨hA, hB⟩
      · subst hn
        simp
      · have hc : ¬(((imgW : ℚ) > (termW : ℚ) ∧ 0 < termW) ∨
            ((imgH : ℚ) > (termH : ℚ) ∧ 0 < termH)) := by
          rintro (⟨hgt, hpos⟩ | ⟨hgt, hpos⟩)
          · have hlt : termW < imgW := by exact_mod_cast hgt
            rcases hA with hA | hA <;> omega
          · have hlt : termH < imgH := by exact_mod_cast hgt
            rcases hB with hB | hB <;> omega
        have hdec : decide (((imgW : ℚ) > (termW : ℚ) ∧ 0 < termW) ∨
            ((imgH : ℚ) > (termH : ℚ) ∧ 0 < termH)) = false := by
          rw [decide_eq_false_iff_not]
          exact hc
        rw [hdec, Bool.and_false]
    simp only [calculate_dimensions, Option.getD_none, Nat.cast_zero, Bool.false_or, hres]
    norm_num [toU32, round_natCast]
    constructor <;> omega
  refine ⟨hmain, ?_, ?_⟩ <;> rw [hmain]

/-- Witness for C8 (amended): a 123×45 source with unknown (zero) terminal
axes and no flags is passed through unchanged, and its outputs are zero in
neither axis. -/
theorem calc_dims_zero_only_from_source_witness :
    calculate_dimensions 123 45 none none false false false false 0 0 = (123, 45) ∧
      ((calculate_dimensions 123 45 none none false false false false 0 0).1 = 0 ↔
        (123 : ℕ) = 0) ∧
      ((calculate_dimensions 123 45 none none false false false false 0 0).2 = 0 ↔
        (45 : ℕ) = 0) :=
  calc_dims_zero_only_from_source 123 45 0 0 false false false false rfl rfl rfl
    (Or.inr ⟨Or.inr rfl, Or.inr rfl⟩) (by norm_num) (by norm_num)

/-! ### Numeral-parsing lemmas -/

lemma foldl_numStep_none (digit : Char → Option ℕ) (base : ℕ) :
    ∀ l : List Char, List.foldl (numStep digit base) none l = none
  | [] => rfl
  | c :: cs => by
    rw [List.foldl_cons, show numStep digit base none c = none from rfl]
    exact foldl_numStep_none digit base cs

lemma foldl_numStep_digits (digit : Char → Option ℕ) (base : ℕ) :
    ∀ (l : List Char) (acc : Option ℕ) (v : ℕ),
      List.foldl (numStep digit base) acc l = some v → ∀ c ∈ l, (digit c).isSome = true
  | [], _, _, _ => by simp
  | c :: cs, acc, v, h => by
    intro x hx
    rw [List.foldl_cons] at h
    rcases List.mem_cons.mp hx with hx | hx
    · subst hx
      by_contra hno
      have hd : digit x = none := by
        cases hdx : digit x
        · rfl
        · rw [hdx] at hno; simp at hno
      have hstep : numStep digit base acc x = none := by
        unfold numStep
        rw [hd]
        cases acc <;> rfl
      rw [hstep, foldl_numStep_none] at h
      exact Option.noConfusion h
    · exact foldl_numStep_digits digit base cs _ v h x hx

lemma numVal_digits (digit : Char → Option ℕ) (base : ℕ) (l : List Char) (v : ℕ)
    (h : numVal digit base l = some v) :
    l ≠ [] ∧ ∀ c ∈ l, (digit c).isSome = true := by
  unfold numVal at h
  by_cases hl : l = []
  · rw [if_pos hl] at h; exact Option.noConfusion h
  · rw [if_neg hl] at h
    exact ⟨hl, foldl_numStep_digits digit base l (some 0) v h⟩

lemma digitVal10_plus : digitVal10 '+' = none := by decide

lemma digitVal10_dash : digitVal10 '-' = none := by decide

lemma hexDigitVal_plus : hexDigitVal '+' = none := by decide

lemma stripPlus_head (c : Char) (cs : List Char) (h : c ≠ '+') :
    stripPlus (c :: cs) = c :: cs := by
  simp [stripPlus, h]

lemma numVal_head_ne_plus (digit : Char → Option ℕ) (base : ℕ) (c : Char) (cs : List Char)
    (v : ℕ) (hplus : digit '+' = none) (h : numVal digit base (c :: cs) = some v) :
    c ≠ '+' := by
  intro hc
  subst hc
  have hmem := (numVal_digits digit base _ v h).2 '+' (by simp)
  rw [hplus] at hmem
  simp at hmem

lemma pureNum_parseU16 (l : List Char) (v : ℕ) (h : pureNum l = some v) :
    parseU16 l = some v ∧ v ≤ 65535 := by
  unfold pureNum at h
  split at h
  next u hnv =>
    split at h
    next hu =>
      have huv : u = v := Option.some.inj h
      subst huv
      obtain ⟨hne, _⟩ := numVal_digits _ _ _ _ hnv
      cases l with
      | nil => exact absurd rfl hne
      | cons c cs =>
        have hc : c ≠ '+' := numVal_head_ne_plus _ _ _ _ _ digitVal10_plus hnv
        refine ⟨?_, hu⟩
        unfold parseU16
        rw [stripPlus_head c cs hc, hnv]
        simp [hu]
    next hu => exact Option.noConfusion h
  next hnv => exact Option.noConfusion h

lemma parseU16_le (l : List Char) (v : ℕ) (h : parseU16 l = some v) : v ≤ 65535 := by
  unfold parseU16 at h
  split at h
  next u hnv =>
    split at h
    next hu => rw [← Option.some.inj h]; exact hu
    next hu => exact Option.noConfusion h
  next hnv => exact Option.noConfusion h

lemma digitsOver_spec (t : List Char) (h : digitsOver t = true) :
    parseU16 t = none ∧ t ≠ [] ∧ '-' ∉ t := by
  unfold digitsOver at h
  split at h
  next v hnv =>
    have hv : 65535 < v := of_decide_eq_true h
    obtain ⟨hne, hdig⟩ := numVal_digits _ _ _ _ hnv
    have hdash : ('-' : Char) ∉ t := by
      intro hm
      have hmem := hdig '-' hm
      rw [digitVal10_dash] at hmem
      simp at hmem
    refine ⟨?_, hne, hdash⟩
    cases t with
    | nil => exact absurd rfl hne
    | cons c cs =>
      have hc : c ≠ '+' := numVal_head_ne_plus _ _ _ _ _ digitVal10_plus hnv
      have hnle : ¬ v ≤ 65535 := by omega
      unfold parseU16
      rw [stripPlus_head c cs hc, hnv]
      simp [hnle]
  next hnv => exact Bool.noConfusion h

/-! ### splitOn lemmas -/

lemma splitOn_ne_nil (sep : Char) : ∀ l : List Char, splitOn sep l ≠ []
  | [] => by simp [splitOn]
  | c :: cs => by
    unfold splitOn
    by_cases hc : c = sep
    · simp [hc]
    · cases h : splitOn sep cs <;> simp [hc, h]

lemma joinSep_splitOn (sep : Char) : ∀ l : List Char, joinSep sep (splitOn sep l) = l
  | [] => rfl
  | c :: cs => by
    have ih := joinSep_splitOn sep cs
    by_cases hc : c = sep
    · rw [show splitOn sep (c :: cs) = [] :: splitOn sep cs from by simp [splitOn, hc]]
      cases hsp : splitOn sep cs with
      | nil => exact absurd hsp (splitOn_ne_nil sep cs)
      | cons h t =>
        rw [hsp] at ih
        show sep :: joinSep sep (h :: t) = c :: cs
        rw [ih, hc]
    · cases hsp : splitOn sep cs with
      | nil => exact absurd hsp (splitOn_ne_nil sep cs)
      | cons h t =>
        rw [show splitOn sep (c :: cs) = (c :: h) :: t from by simp [splitOn, hc, hsp]]
        rw [hsp] at ih
        cases t with
        | nil =>
          show (c :: h) ++ [] = c :: cs
          have ih2 : h ++ [] = cs := ih
          rw [List.cons_append, ih2]
        | cons t1 t2 =>
          show (c :: h) ++ sep :: joinSep sep (t1 :: t2) = c :: cs
          have ih2 : h ++ sep :: joinSep sep (t1 :: t2) = cs := ih
          rw [List.cons_append, ih2]

lemma splitOn_two (sep : Char) (l f1 f2 : List Char) (h : splitOn sep l = [f1, f2]) :
    l = f1 ++ sep :: f2 := by
  have hj := joinSep_splitOn sep l
  rw [h] at hj
  have he : joinSep sep [f1, f2] = f1 ++ sep :: (f2 ++ []) := rfl
  rw [he] at hj
  simpa using hj.symm

lemma mem_of_splitOn_two (sep : Char) (l f1 f2 : List Char)
    (h : splitOn sep l = [f1, f2]) : sep ∈ l := by
  rw [splitOn_two sep l f1 f2 h]
  simp

/-! ### Per-token behaviour of the page parser -/

lemma parsePart_tok (part : List Char) (tk : PageTok) (h : tokOfPart part = some tk) :
    (tokBad tk = true → isErr (parsePart part) = true) ∧
    (tokBad tk = false → parsePart part = .ok (tokSel tk)) := by
  unfold tokOfPart at h
  unfold parsePart
  by_cases hp : trim part = []
  · rw [if_pos hp] at h
    rw [if_pos hp]
    have htk : tk = .blank := (Option.some.inj h).symm
    subst htk
    exact ⟨fun hb => Bool.noConfusion hb, fun _ => rfl⟩
  · rw [if_neg hp] at h
    rw [if_neg hp]
    by_cases hd : '-' ∈ trim part
    · rw [if_pos hd] at h
      rw [if_pos hd]
      cases hsp : splitOn '-' (trim part) with
      | nil => rw [hsp] at h; simp at h
      | cons f1 rest =>
        cases rest with
        | nil => rw [hsp] at h; simp at h
        | cons f2 rest2 =>
          cases rest2 with
          | cons g gs => rw [hsp] at h; simp at h
          | nil =>
            rw [hsp] at h
            have h2 : (match pureNum (trim f1), pureNum (trim f2) with
                | some a, some b => some (PageTok.range a b)
                | _, _ => none) = some tk := h
            simp only [List.headD_cons, List.drop_succ_cons, List.drop_zero]
            cases ha : pureNum (trim f1) with
            | none => rw [ha] at h2; simp at h2
            | some a =>
              cases hb : pureNum (trim f2) with
              | none => rw [ha, hb] at h2; simp at h2
              | some b =>
                rw [ha, hb] at h2
                have htk : tk = .range a b :=
                  (Option.some.inj (show some (PageTok.range a b) = some tk from h2)).symm
                subst htk
                obtain ⟨hu16a, hba⟩ := pureNum_parseU16 _ _ ha
                obtain ⟨hu16b, hbb⟩ := pureNum_parseU16 _ _ hb
                rw [hu16a, hu16b]
                by_cases hbad : a < 1 ∨ b ≤ a
                · refine ⟨fun _ => ?_, fun hnb => ?_⟩
                  · show isErr (if a < 1 ∨ b ≤ a then Except.error PErr.badRange
                        else Except.ok (List.range' (a - 1) (b + 1 - a))) = true
                    rw [if_pos hbad]
                    rfl
                  · have hnb2 : decide (a < 1 ∨ b ≤ a) = false := hnb
                    exact absurd hbad (of_decide_eq_false hnb2)
                · refine ⟨fun hbd => ?_, fun _ => ?_⟩
                  · have hbd2 : decide (a < 1 ∨ b ≤ a) = true := hbd
                    exact absurd (of_decide_eq_true hbd2) hbad
                  · show (if a < 1 ∨ b ≤ a then Except.error PErr.badRange
                        else Except.ok (List.range' (a - 1) (b + 1 - a))) =
                      Except.ok (tokSel (.range a b))
                    rw [if_neg hbad]
                    rfl
    · rw [if_neg hd] at h
      rw [if_neg hd]
      cases hn : pureNum (trim part) with
      | none => rw [hn] at h; simp at h
      | some n =>
        rw [hn] at h
        have htk : tk = .single n :=
          (Option.some.inj (show some (PageTok.single n) = some tk from h)).symm
        subst htk
        obtain ⟨hu16, hbn⟩ := pureNum_parseU16 _ _ hn
        rw [hu16]
        by_cases h1 : n < 1
        · refine ⟨fun _ => ?_, fun hnb => ?_⟩
          · show isErr (if n < 1 then Except.error PErr.badIndex
                else Except.ok [n - 1]) = true
            rw [if_pos h1]
            rfl
          · have hnb2 : decide (n < 1) = false := hnb
            exact absurd h1 (of_decide_eq_false hnb2)
        · refine ⟨fun hbd => ?_, fun _ => ?_⟩
          · have hbd2 : decide (n < 1) = true := hbd
            exact absurd (of_decide_eq_true hbd2) h1
          · show (if n < 1 then Except.error PErr.badIndex else Except.ok [n - 1]) =
              Except.ok (tokSel (.single n))
            rw [if_neg h1]
            rfl

lemma parsePart_le (part : List Char) (l : List ℕ) (h : parsePart part = .ok l) :
    ∀ x ∈ l, x ≤ 65534 := by
  unfold parsePart at h
  split at h
  · have hl : l = [] := (Except.ok.inj h).symm
    subst hl
    simp
  · split at h
    · split at h
      next a b ha hb =>
        split at h
        · exact Except.noConfusion h
        next hbad =>
          have hl : l = List.range' (a - 1) (b + 1 - a) := (Except.ok.inj h).symm
          subst hl
          intro x hx
          have hb65 : b ≤ 65535 := parseU16_le _ _ hb
          have hx2 := List.mem_range'_1.mp hx
          omega
      next ha hb => exact Except.noConfusion h
    · split at h
      next n hn =>
        split at h
        · exact Except.noConfusion h
        next h1 =>
          have hl : l = [n - 1] := (Except.ok.inj h).symm
          subst hl
          intro x hx
          have hn65 : n ≤ 65535 := parseU16_le _ _ hn
          simp at hx
          omega
      next hn => exact Except.noConfusion h

lemma overflow_parsePart (part : List Char) (h : overflowTok (trim part) = true) :
    isErr (parsePart part) = true := by
  unfold overflowTok at h
  rcases Bool.or_eq_true_iff.mp h with hover | hrange
  · obtain ⟨hu16, hne, hdash⟩ := digitsOver_spec _ hover
    unfold parsePart
    rw [if_neg hne, if_neg hdash, hu16]
    rfl
  · split at hrange
    next f1 f2 hsp =>
      have hne : trim part ≠ [] := by
        rw [splitOn_two '-' (trim part) f1 f2 hsp]
        simp
      have hdash : '-' ∈ trim part := mem_of_splitOn_two '-' (trim part) f1 f2 hsp
      unfold parsePart
      rw [if_neg hne, if_pos hdash, hsp]
      simp only [List.headD_cons, List.drop_succ_cons, List.drop_zero]
      rcases Bool.or_eq_true_iff.mp hrange with h1 | h2
      · obtain ⟨hu16, _, _⟩ := digitsOver_spec _ h1
        rw [hu16]
        cases parseU16 (trim f2) <;> rfl
      · obtain ⟨hu16, _, _⟩ := digitsOver_spec _ h2
        rw [hu16]
        cases parseU16 (trim f1) <;> rfl
    next hno => exact Bool.noConfusion hrange

/-! ### The page-parser loop -/

lemma parsePagesAux_err : ∀ parts : List (List Char),
    (∃ p ∈ parts, isErr (parsePart p) = true) → isErr (parsePagesAux parts) = true
  | [], h => by simp at h
  | p :: ps, h => by
    unfold parsePagesAux
    cases hpp : parsePart p with
    | error e => rfl
    | ok l =>
      obtain ⟨q, hq, hqe⟩ := h
      rcases List.mem_cons.mp hq with hq1 | hq2
      · subst hq1
        rw [hpp] at hqe
        exact Bool.noConfusion hqe
      · have hrec := parsePagesAux_err ps ⟨q, hq2, hqe⟩
        cases haux : parsePagesAux ps with
        | error e => rfl
        | ok r =>
          rw [haux] at hrec
          exact Bool.noConfusion hrec

lemma parsePagesAux_grammar : ∀ parts : List (List Char),
    (∀ p ∈ parts, (tokOfPart p).isSome = true) →
    ((parts.filterMap tokOfPart).any tokBad = true → isErr (parsePagesAux parts) = true)
    ∧ ((parts.filterMap tokOfPart).any tokBad = false →
        parsePagesAux parts = .ok (selOf (parts.filterMap tokOfPart)))
  | [], _ => by
    refine ⟨fun hb => ?_, fun _ => rfl⟩
    simp at hb
  | p :: ps, hall => by
    have hp : (tokOfPart p).isSome = true := hall p (by simp)
    obtain ⟨tk, htk⟩ := Option.isSome_iff_exists.mp hp
    have hfm : (p :: ps).filterMap tokOfPart = tk :: ps.filterMap tokOfPart := by
      rw [List.filterMap_cons, htk]
    have ih := parsePagesAux_grammar ps (fun q hq => hall q (by simp [hq]))
    have hpart := parsePart_tok p tk htk
    rw [hfm]
    cases hbad : tokBad tk with
    | true =>
      refine ⟨fun _ => ?_, fun hnb => ?_⟩
      · exact parsePagesAux_err (p :: ps) ⟨p, by simp, hpart.1 hbad⟩
      · rw [List.any_cons, hbad] at hnb
        simp at hnb
    | false =>
      have hpok : parsePart p = .ok (tokSel tk) := hpart.2 hbad
      cases hrest : (ps.filterMap tokOfPart).any tokBad with
      | true =>
        refine ⟨fun _ => ?_, fun hnb => ?_⟩
        · have herr := ih.1 hrest
          unfold parsePagesAux
          rw [hpok]
          cases haux : parsePagesAux ps with
          | error e => rfl
          | ok r =>
            rw [haux] at herr
            exact Bool.noConfusion herr
        · rw [List.any_cons, hbad, hrest] at hnb
          simp at hnb
      | false =>
        have hok := ih.2 hrest
        refine ⟨fun hb => ?_, fun _ => ?_⟩
        · rw [List.any_cons, hbad, hrest] at hb
          simp at hb
        · unfold parsePagesAux
          rw [hpok, hok]
          rfl

lemma parsePagesAux_le : ∀ (parts : List (List Char)) (l : List ℕ),
    parsePagesAux parts = .ok l → ∀ x ∈ l, x ≤ 65534
  | [], l, h => by
    have hl : l = [] := (Except.ok.inj h).symm
    subst hl
    simp
  | p :: ps, l, h => by
    unfold parsePagesAux at h
    cases hpp : parsePart p with
    | error e => rw [hpp] at h; exact Except.noConfusion h
    | ok l1 =>
      rw [hpp] at h
      cases haux : parsePagesAux ps with
      | error e => rw [haux] at h; exact Except.noConfusion h
      | ok l2 =>
        rw [haux] at h
        have hl : l = l1 ++ l2 := (Except.ok.inj h).symm
        subst hl
        intro x hx
        rcases List.mem_append.mp hx with hx | hx
        · exact parsePart_le p l1 hpp x hx
        · exact parsePagesAux_le ps l2 haux x hx

/-! ### Sorting and adjacent deduplication -/

lemma mem_dedupAdj : ∀ (l : List ℕ) (x : ℕ), x ∈ dedupAdj l ↔ x ∈ l
  | [], x => by simp [dedupAdj]
  | [y], x => by simp [dedupAdj]
  | y :: z :: r, x => by
    have ih := mem_dedupAdj (z :: r) x
    by_cases h : y = z
    · rw [show dedupAdj (y :: z :: r) = dedupAdj (z :: r) from by simp [dedupAdj, h]]
      rw [ih, h]
      simp
    · rw [show dedupAdj (y :: z :: r) = y :: dedupAdj (z :: r) from by simp [dedupAdj, h]]
      simp [ih]

lemma dedupAdj_head : ∀ (y : ℕ) (r : List ℕ), ∃ t, dedupAdj (y :: r) = y :: t
  | _, [] => ⟨[], rfl⟩
  | y, z :: r => by
    by_cases h : y = z
    · obtain ⟨t, ht⟩ := dedupAdj_head z r
      exact ⟨t, by rw [show dedupAdj (y :: z :: r) = dedupAdj (z :: r) from
        by simp [dedupAdj, h], ht, h]⟩
    · exact ⟨dedupAdj (z :: r), by simp [dedupAdj, h]⟩

lemma chain_lt_dedupAdj : ∀ l : List ℕ,
    List.Chain' (· ≤ ·) l → List.Chain' (· < ·) (dedupAdj l)
  | [], _ => by simp [dedupAdj]
  | [x], _ => by simp [dedupAdj]
  | x :: y :: r, h => by
    have h1 : x ≤ y := (List.chain'_cons.mp h).1
    have h2 : List.Chain' (· ≤ ·) (y :: r) := (List.chain'_cons.mp h).2
    have ih := chain_lt_dedupAdj (y :: r) h2
    by_cases hxy : x = y
    · rw [show dedupAdj (x :: y :: r) = dedupAdj (y :: r) from by simp [dedupAdj, hxy]]
      exact ih
    · rw [show dedupAdj (x :: y :: r) = x :: dedupAdj (y :: r) from by simp [dedupAdj, hxy]]
      obtain ⟨t, ht⟩ := dedupAdj_head y r
      rw [ht] at ih ⊢
      exact List.chain'_cons.mpr ⟨lt_of_le_of_ne h1 hxy, ih⟩

lemma sortDedup_chain (l : List ℕ) : List.Chain' (· < ·) (sortDedup l) := by
  unfold sortDedup
  apply chain_lt_dedupAdj
  exact (List.sorted_insertionSort (· ≤ ·) l).chain'

lemma mem_sortDedup (l : List ℕ) (x : ℕ) : x ∈ sortDedup l ↔ x ∈ l := by
  unfold sortDedup
  rw [mem_dedupAdj]
  exact (List.perm_insertionSort (· ≤ ·) l).mem_iff

/-- C5 (amended): for every page-range string whose comma-separated parts all
match the token grammar `blank | INT | INT-INT` (whitespace-trimmed, values
at most 65535): the parser errors exactly when some page number is < 1 or
some range's end is not strictly greater than its start; otherwise an
all-blank selection yields unset (`none`) and a nonempty selection yields the
0-indexed pages sorted strictly ascending (hence deduplicated), containing
exactly the selected pages.  (As stated the claim is false: off-grammar
strings are not all rejected — see the counterexample — and in-grammar
numerals above 65535 are errors, covered by the u16 theorem.) -/
theorem parse_pages_grammar_spec (s : List Char)
    (hgram : ∀ p ∈ splitOn ',' s, (tokOfPart p).isSome = true) :
    ((toksOf s).any tokBad = true ↔ isErr (parse_pages s) = true)
    ∧ ((toksOf s).any tokBad = false →
        parse_pages s = .ok (if selOf (toksOf s) = [] then none
          else some (sortDedup (selOf (toksOf s)))))
    ∧ List.Chain' (· < ·) (sortDedup (selOf (toksOf s)))
    ∧ (∀ x, x ∈ sortDedup (selOf (toksOf s)) ↔ x ∈ selOf (toksOf s)) := by
  simp only [toksOf]
  have haux := parsePagesAux_grammar (splitOn ',' s) hgram
  refine ⟨⟨?_, ?_⟩, ?_, sortDedup_chain _, fun x => mem_sortDedup _ x⟩
  · intro hb
    have herr := haux.1 hb
    unfold parse_pages
    cases hA : parsePagesAux (splitOn ',' s) with
    | error e => rfl
    | ok r =>
      rw [hA] at herr
      exact Bool.noConfusion herr
  · intro herr
    cases hany : ((splitOn ',' s).filterMap tokOfPart).any tokBad with
    | true => rfl
    | false =>
      have hok := haux.2 hany
      have hne : isErr (parse_pages s) = false := by
        unfold parse_pages
        rw [hok]
        cases hsel : selOf ((splitOn ',' s).filterMap tokOfPart) with
        | nil => rfl
        | cons a as => rfl
      rw [herr] at hne
      exact Bool.noConfusion hne
  · intro hnb
    have hok := haux.2 hnb
    unfold parse_pages
    rw [hok]
    cases hsel : selOf ((splitOn ',' s).filterMap tokOfPart) with
    | nil => rfl
    | cons a as =>
      rw [if_neg (List.cons_ne_nil a as)]

/-- C5 counterexample: "1-2-3" does not match the token grammar (a token may
contain at most one `-`), yet the parser accepts it: `split('-')` yields
three fields, only the first two are read, and the result is pages 1-2,
i.e. indices {0,1}.  The claim says off-grammar strings are rejected. -/
theorem parse_pages_dash_cex :
    tokOfPart (chars ("1-2-3")) = none ∧
      parse_pages (chars ("1-2-3")) = .ok (some [0, 1]) := by
  constructor
  · decide
  · decide

/-- Witness for C5 (amended): "3-2" is an in-grammar range with end not
greater than start and is rejected; "1-3,34" parses to {0,1,2,33}. -/
theorem parse_pages_grammar_spec_witness :
    isErr (parse_pages (chars ("3-2"))) = true ∧
      parse_pages (chars ("1-3,34")) = .ok (some [0, 1, 2, 33]) := by
  constructor
  · exact (parse_pages_grammar_spec (chars ("3-2")) (by decide)).1.mp (by decide)
  · have h := (parse_pages_grammar_spec (chars ("1-3,34")) (by decide)).2.1 (by decide)
    rw [h]
    decide

/-- C10: the page parser reads page numbers as 16-bit unsigned integers.
Every index it ever returns is at most 65534 (0-indexed), and any input one
of whose comma-separated parts mentions a page number above 65535 — a pure
numeral token, or either side of an `a-b` range token — is an error. -/
theorem parse_pages_u16 :
    (∀ (s : List Char) (l : List ℕ), parse_pages s = .ok (some l) → ∀ x ∈ l, x ≤ 65534)
    ∧ (∀ s : List Char, (∃ p ∈ splitOn ',' s, overflowTok (trim p) = true) →
        isErr (parse_pages s) = true) := by
  constructor
  · intro s l h x hx
    unfold parse_pages at h
    split at h
    · exact Except.noConfusion h
    · have : (none : Option (List ℕ)) = some l := Except.ok.inj h
      exact Option.noConfusion this
    next r hne heq =>
      have hl : some (sortDedup r) = some l := Except.ok.inj h
      have hl2 : l = sortDedup r := (Option.some.inj hl).symm
      subst hl2
      have hxr : x ∈ r := (mem_sortDedup r x).mp hx
      exact parsePagesAux_le (splitOn ',' s) r heq x hxr
  · intro s hover
    obtain ⟨p, hp, hov⟩ := hover
    have herr := parsePagesAux_err (splitOn ',' s) ⟨p, hp, overflow_parsePart p hov⟩
    unfold parse_pages
    cases hA : parsePagesAux (splitOn ',' s) with
    | error e => rfl
    | ok r =>
      rw [hA] at herr
      exact Bool.noConfusion herr

/-- Witness for C10: every index of the parse of "1" is at most 65534, and
"70000" (above `u16::MAX`) is rejected. -/
theorem parse_pages_u16_witness :
    ((0 : ℕ) ≤ 65534) ∧ isErr (parse_pages (chars ("70000"))) = true := by
  constructor
  · exact parse_pages_u16.1 (chars ("1")) [0] (by decide) 0 (by decide)
  · exact parse_pages_u16.2 (chars ("70000")) ⟨chars ("70000"), by decide, by decide⟩

/-! ### Color-parser lemmas -/

lemma hexDigitVal_le (c : Char) (d : ℕ) (h : hexDigitVal c = some d) : d ≤ 15 := by
  unfold hexDigitVal at h
  split at h
  next h48 =>
    have hd := Option.some.inj h
    omega
  next h48 =>
    split at h
    next h97 =>
      have hd := Option.some.inj h
      omega
    next h97 =>
      split at h
      next h65 =>
        have hd := Option.some.inj h
        omega
      next h65 => exact Option.noConfusion h

lemma parseU8Hex_pair (a b : Char) : (parseU8Hex [a, b]).isSome = validPairB a b := by
  by_cases ha : a = '+'
  · subst ha
    unfold parseU8Hex validPairB isHexDigitB
    rw [show stripPlus ('+' :: [b]) = [b] from by simp [stripPlus]]
    cases hb : hexDigitVal b with
    | none =>
      rw [show numVal hexDigitVal 16 [b] = none from by
        simp [numVal, numValCore, numStep, hb]]
      simp [hexDigitVal_plus, hb]
    | some d =>
      have hd15 := hexDigitVal_le b d hb
      rw [show numVal hexDigitVal 16 [b] = some d from by
        simp [numVal, numValCore, numStep, hb]]
      simp [hexDigitVal_plus, hb, show d ≤ 255 from by omega]
  · unfold parseU8Hex validPairB isHexDigitB
    rw [stripPlus_head a [b] ha]
    have hba : (a == '+') = false := by
      simp [ha]
    cases haa : hexDigitVal a with
    | none =>
      rw [show numVal hexDigitVal 16 [a, b] = none from by
        cases hbx : hexDigitVal b <;> simp [numVal, numValCore, numStep, haa, hbx]]
      simp [haa, hba]
    | some d1 =>
      cases hbb2 : hexDigitVal b with
      | none =>
        rw [show numVal hexDigitVal 16 [a, b] = none from by
          simp [numVal, numValCore, numStep, haa, hbb2]]
        simp [haa, hbb2, hba]
      | some d2 =>
        have h1 := hexDigitVal_le a d1 haa
        have h2 := hexDigitVal_le b d2 hbb2
        rw [show numVal hexDigitVal 16 [a, b] = some (16 * (16 * 0 + d1) + d2) from by
          simp [numVal, numValCore, numStep, haa, hbb2]]
        simp only [haa, hbb2, hba, Option.isSome_some, Bool.true_and, Bool.or_false]
        simp
        omega

lemma length_six_list (c : List Char) (h : c.length = 6) :
    ∃ a b c3 d e f, c = [a, b, c3, d, e, f] := by
  rcases c with _ | ⟨a, _ | ⟨b, _ | ⟨c3, _ | ⟨d, _ | ⟨e, _ | ⟨f, rest⟩⟩⟩⟩⟩⟩ <;> simp at h
  exact ⟨a, b, c3, d, e, f, by rw [h]⟩

lemma colorGrammar_short (l : List Char) (h : (l.dropWhile (· == '#')).length ≠ 6) :
    colorGrammar l = false := by
  unfold colorGrammar
  split
  next a b c3 d e f heq => exact absurd (by rw [heq]; rfl) h
  next => rfl

/-- C7 (amended): `parse_color` succeeds exactly on strings consisting of any
number (zero or more) of leading `#` characters followed by exactly 6
characters forming three 2-character groups each accepted by
`u8::from_str_radix(-, 16)` (two hex digits, or `+` followed by one hex
digit); every successful parse has alpha 255.  "FFFFFF" and "#FFFFFF" parse
to (255,255,255,255); "FFF" and "ZZZZZZ" fail.  (As stated the claim is
false: it allows only one optional `#` and only hex digits — see the
counterexample.) -/
theorem parse_color_spec :
    (∀ l : List Char, ((parse_color l).isSome = colorGrammar l)
      ∧ ∀ p : ℕ × ℕ × ℕ × ℕ, parse_color l = some p → p.2.2.2 = 255)
    ∧ parse_color (chars ("FFFFFF")) = some (255, 255, 255, 255)
    ∧ parse_color (chars ("#FFFFFF")) = some (255, 255, 255, 255)
    ∧ parse_color (chars ("FFF")) = none
    ∧ parse_color (chars ("ZZZZZZ")) = none := by
  refine ⟨fun l => ⟨?_, ?_⟩, by decide, by decide, by decide, by decide⟩
  · by_cases hlen : (l.dropWhile (· == '#')).length = 6
    · obtain ⟨a, b, c3, d, e, f, hc⟩ := length_six_list _ hlen
      unfold parse_color colorGrammar
      rw [hc]
      rw [if_pos (show ([a, b, c3, d, e, f] : List Char).length = 6 from rfl)]
      show (match parseU8Hex [a, b], parseU8Hex [c3, d], parseU8Hex [e, f] with
        | some r, some g, some bl => some (r, g, bl, 255)
        | _, _, _ => none).isSome = (validPairB a b && validPairB c3 d && validPairB e f)
      rw [← parseU8Hex_pair a b, ← parseU8Hex_pair c3 d, ← parseU8Hex_pair e f]
      cases parseU8Hex [a, b] <;> cases parseU8Hex [c3, d] <;> cases parseU8Hex [e, f] <;>
        simp
    · rw [show parse_color l = none from by unfold parse_color; rw [if_neg hlen]]
      rw [colorGrammar_short l hlen]
      rfl
  · intro p hp
    unfold parse_color at hp
    split at hp
    · split at hp
      next r g bl hr hg hb =>
        have hpe := Option.some.inj hp
        rw [← hpe]
      next => exact Option.noConfusion hp
    · exact Option.noConfusion hp

/-- Witness for C7 (amended) at "#12345A": the success-iff-grammar equation,
and a successful parse whose alpha is 255. -/
theorem parse_color_spec_witness :
    (parse_color (chars ("#12345A"))).isSome = colorGrammar (chars ("#12345A")) ∧
      ((18 : ℕ), (52 : ℕ), (90 : ℕ), (255 : ℕ)).2.2.2 = 255 := by
  constructor
  · exact (parse_color_spec.1 (chars ("#12345A"))).1
  · exact (parse_color_spec.1 (chars ("#12345A"))).2 (18, 52, 90, 255) (by decide)

end Rpix
